import Mathlib

/-!
Verification of the plugin discovery / message dispatch framework.

The source under verification is the static `Framework` class of the bot:
command discovery (`loadCommands` and friends), recursive filesystem
scanning (`getFilesSync`), command resolution (`findCommand`), the
message dispatch handler installed by `listen`, and the lazy per-guild
settings attachment performed inside that handler.

Strings coming from the JavaScript runtime are embedded as Lean `String`;
the JavaScript string primitives used by the source (`startsWith`,
`endsWith`, `toLowerCase`) are embedded over the character list of the
string, which matches their per-character semantics on the inputs
involved here.
-/

/-- Embedding of JavaScript `String.prototype.toLowerCase` (per-character
lowercasing, as used on ASCII file names). -/
def jsToLower (s : String) : String := String.mk (s.toList.map Char.toLower)

/-- Embedding of JavaScript `String.prototype.endsWith`. -/
def jsEndsWith (s suffix : String) : Bool := suffix.toList.isSuffixOf s.toList

/-- Embedding of JavaScript `String.prototype.startsWith`. -/
def jsStartsWith (s p : String) : Bool := p.toList.isPrefixOf s.toList

/-- A registered command, per the plugin module contract: a primary name,
an ordered list of alias strings, a usage template and a minimum argument
count. -/
structure Command where
  name : String
  aliases : List String
  usage : String
  minArgs : Nat
deriving DecidableEq, Repr

/-- Modelled from the spec: `Command.hasAlias` lives in `src/bot/command`,
which is not part of the provided sources; per the spec, resolution tests
whether the token equals the command's primary name or any of its aliases,
by exact (case-sensitive) string equality. -/
def Command.hasAlias (c : Command) (token : String) : Bool :=
  c.name == token || c.aliases.contains token

/-- The set of tokens a command answers to: its primary name followed by
its aliases. -/
def Command.tokens (c : Command) : List String := c.name :: c.aliases

/-- Embedding of `Framework.findCommand`: a linear scan over the registered
commands, returning the first one whose name or alias matches, and `none`
when no command matches. -/
def findCommand (commands : List Command) (token : String) : Option Command :=
  match commands with
  | [] => none
  | c :: rest => if c.hasAlias token then some c else findCommand rest token

/-- A sample command used to instantiate the general theorems. -/
def cmdPing : Command :=
  { name := "ping", aliases := ["p"], usage := "ping", minArgs := 0 }

/-- A sample command with a two-argument contract. -/
def cmdBan : Command :=
  { name := "ban", aliases := ["b"], usage := "ban <user> <reason>", minArgs := 2 }

/-- A sample command sharing the alias "p" with `cmdPing`. -/
def cmdPingTwo : Command :=
  { name := "pingtwo", aliases := ["p"], usage := "pingtwo", minArgs := 0 }

/-- A node of the filesystem tree: a plain file, or a directory holding
named entries. This models the directory tree walked by
`Framework.getFilesSync` through `fs.readdirSync` and `fs.statSync`. -/
inductive FsNode where
  | file : FsNode
  | dir : List (String × FsNode) → FsNode

/-- Name lookup among the entries of one directory. -/
def lookupEntry : List (String × FsNode) → String → Option FsNode
  | [], _ => none
  | (nm, child) :: rest, seg => if nm = seg then some child else lookupEntry rest seg

/-- Resolution of a path (list of segments) against a filesystem node;
`none` models a path for which `fs.existsSync` is false. -/
def resolveNode : FsNode → List String → Option FsNode
  | n, [] => some n
  | FsNode.file, _ :: _ => none
  | FsNode.dir entries, seg :: rest =>
    match lookupEntry entries seg with
    | some child => resolveNode child rest
    | none => none

/-- Embedding of `fs.existsSync` against the modelled tree. -/
def existsSync (root : FsNode) (p : List String) : Bool := (resolveNode root p).isSome

/-- Recursive body of `Framework.getFilesSync` over the entry list of one
directory: a directory entry is recursed into, a file entry is collected
when its lowercased name ends with ".js", in entry order. -/
def getFilesList (p : List String) : List (String × FsNode) → List (List String)
  | [] => []
  | (nm, FsNode.file) :: rest =>
    (if jsEndsWith (jsToLower nm) ".js" then [p ++ [nm]] else []) ++ getFilesList p rest
  | (nm, FsNode.dir sub) :: rest =>
    getFilesList (p ++ [nm]) sub ++ getFilesList p rest

/-- Embedding of `Framework.getFilesSync`: `fs.readdirSync` raises when the
directory does not exist (or is a plain file), modelled as `Except.error`;
otherwise the recursive collection runs over the entry list. -/
def getFilesSync (root : FsNode) (dirPath : List String) : Except Unit (List (List String)) :=
  match resolveNode root dirPath with
  | some (FsNode.dir entries) => Except.ok (getFilesList dirPath entries)
  | _ => Except.error ()

/-- An exported symbol of a dynamically loaded module, as inspected by the
command load pass: a function-typed export whose no-argument instantiation
is a `Command` instance, a function-typed export whose instantiation is
not a `Command`, or a non-function export. This abstracts the JavaScript
`typeof command === "function"` and `instanceof Command` tests. -/
inductive ExportVal where
  | commandCtor (c : Command)
  | otherCtor
  | plainValue
deriving DecidableEq, Repr

/-- The command instance contributed by one exported symbol, when any. -/
def exportInstance : String × ExportVal → Option Command
  | (_, ExportVal.commandCtor c) => some c
  | (_, ExportVal.otherCtor) => none
  | (_, ExportVal.plainValue) => none

/-- Embedding of the per-module loop of `Framework.loadCommands`: each
exported symbol that is function-typed and instantiates to a `Command` is
pushed onto the command index; every other export is skipped. -/
def loadModuleCommands (idx : List Command) : List (String × ExportVal) → List Command
  | [] => idx
  | e :: rest =>
    match e.2 with
    | ExportVal.commandCtor c => loadModuleCommands (idx ++ [c]) rest
    | ExportVal.otherCtor => loadModuleCommands idx rest
    | ExportVal.plainValue => loadModuleCommands idx rest

/-- The whole-pass fold of `loadModuleCommands` over the discovered module
files, in discovery order. -/
def loadPassModules (idx : List Command) (mods : List (List (String × ExportVal))) :
    List Command :=
  mods.foldl loadModuleCommands idx

/-- Embedding of `Framework.loadCommands` for a given directory: an
`fs.existsSync` guard returning early with no effect, then the scan, then
the per-file load loop; `loadModule` stands for `require`, mapping a file
path to its exported symbols. -/
def loadCommandsPass (root : FsNode) (loadModule : List String → List (String × ExportVal))
    (dirPath : List String) (idx : List Command) : Except Unit (List Command) :=
  if existsSync root dirPath = false then Except.ok idx
  else
    match getFilesSync root dirPath with
    | Except.ok files => Except.ok (loadPassModules idx (files.map loadModule))
    | Except.error e => Except.error e

/-- An incoming platform message, restricted to the fields the dispatch
handler reads: the text content and whether the author is an automated
account. -/
structure Message where
  content : String
  authorIsBot : Bool
deriving DecidableEq, Repr

/-- An observable action of the dispatch handler: a command-index lookup,
a plain-text reply sent to the originating channel, or an invocation of a
command's execute contract with its argument tokens. -/
inductive Effect where
  | lookup (token : String)
  | send (text : String)
  | execute (c : Command) (args : List String)
deriving DecidableEq, Repr

/-- Split of a character list on spaces, accumulating the current token in
reverse; consecutive separators yield empty tokens, as JavaScript
`String.prototype.split(" ")` does. -/
def splitSpacesAux : List Char → List Char → List String
  | [], acc => [String.mk acc.reverse]
  | c :: rest, acc =>
    if c = ' ' then String.mk acc.reverse :: splitSpacesAux rest []
    else splitSpacesAux rest (c :: acc)

/-- Modelled from the spec: the `Input` class of `src/bot/input` is not
part of the provided sources; per the spec, input construction tokenizes
the message text into whitespace-separated tokens. -/
def tokenize (s : String) : List String := splitSpacesAux s.toList []

/-- Modelled from the spec: the message text minus the prefix, the part of
the content the `Input` tokenizer works on. -/
def stripLeading (pfx content : String) : String :=
  String.mk (content.toList.drop pfx.toList.length)

/-- The token list of a message under a given guild prefix. -/
def inputTokens (pfx content : String) : List String := tokenize (stripLeading pfx content)

/-- Modelled from the spec: the command name parsed from a message is the
first post-prefix token. -/
def inputCommandName (pfx content : String) : String := (inputTokens pfx content).headD ""

/-- Modelled from the spec: the argument tokens of a message are the
post-prefix tokens after the command name. -/
def inputArgs (pfx content : String) : List String := (inputTokens pfx content).tail

/-- Modelled from the spec: `Input.isProper` holds when the supplied
argument count reaches the command's declared minimum. -/
def isProper (c : Command) (args : List String) : Bool := c.minArgs ≤ args.length

/-- The reply text built by the handler for an improper invocation, from
the source literally: backtick-quoted usage after the word Usage. -/
def usageMessage (c : Command) : String := "Usage:  `" ++ c.usage ++ "`"

/-- Embedding of the per-message handler installed by `Framework.listen`,
from the prefix filter on (the guild-settings section is modelled
separately as a transition system below, since it is where handlers can
interleave): terminate on a non-prefixed message, then terminate on an
automated author, then parse the input, query the command index once, and
either execute, reply with usage, or fall through silently. -/
def handleMessage (commands : List Command) (pfx : String) (m : Message) : List Effect :=
  if !(jsStartsWith m.content pfx) then []
  else if m.authorIsBot then []
  else
    Effect.lookup (inputCommandName pfx m.content) ::
      match findCommand commands (inputCommandName pfx m.content) with
      | none => []
      | some c =>
        if isProper c (inputArgs pfx m.content) then
          [Effect.execute c (inputArgs pfx m.content)]
        else
          [Effect.send (usageMessage c)]

/-- Modelled from the spec: a guild settings bucket (the `GuildBucket`
class of `src/lib/database/buckets/guild` is not part of the provided
sources). A freshly constructed bucket has its fields at their defaults;
the asynchronous load fills them from the external store. Only the loaded
flag and the configured prefix field are modelled. -/
structure GuildBucket where
  loaded : Bool
  pfx : Option String
deriving DecidableEq, Repr

/-- The bucket as produced by the constructor, before its load completes. -/
def freshGuildBucket : GuildBucket := { loaded := false, pfx := none }

/-- The control point of one message handler inside the guild-settings
section of `listen`: not yet started, suspended at the awaited bucket
load, or past the section, remembering the loaded flag and prefix it
observed on the bucket it proceeded with. -/
inductive HPhase where
  | start
  | awaitingLoad
  | proceeding (sawLoaded : Bool) (sawPfx : Option String)
deriving DecidableEq, Repr

/-- A configuration of the dispatch system for one guild entity and n
in-flight message handlers: each handler's control point, the bucket
attached to the guild object (none before any handler attaches one), and
the number of loads issued to the external settings store. -/
structure DispatchConfig (n : Nat) where
  phases : Fin n → HPhase
  settings : Option GuildBucket
  loadCount : Nat

/-- The interleaving semantics of the guild-settings section of `listen`
under the cooperative single-threaded scheduler, where control changes
hands only at await points. The preludeFresh step is the synchronous
block from handler entry through the settings check, the bucket
construction and attachment, and the issue of the load, up to the await:
no other handler can run inside it, because it contains no await. The
preludeCached step is the same block when a bucket is already attached:
the handler passes the section synchronously, observing the current
bucket fields. The loadDone step is the completion of the external load,
resuming the suspended handler with the stored prefix sp. -/
inductive DStep (sp : String) {n : Nat} : Fin n → DispatchConfig n → DispatchConfig n → Prop where
  | preludeFresh (i : Fin n) (c : DispatchConfig n)
      (hph : c.phases i = HPhase.start) (hs : c.settings = none) :
      DStep sp i c
        { phases := Function.update c.phases i HPhase.awaitingLoad,
          settings := some freshGuildBucket,
          loadCount := c.loadCount + 1 }
  | preludeCached (i : Fin n) (c : DispatchConfig n) (b : GuildBucket)
      (hph : c.phases i = HPhase.start) (hs : c.settings = some b) :
      DStep sp i c
        { c with phases := Function.update c.phases i (HPhase.proceeding b.loaded b.pfx) }
  | loadDone (i : Fin n) (c : DispatchConfig n) (b : GuildBucket)
      (hph : c.phases i = HPhase.awaitingLoad) (hs : c.settings = some b) :
      DStep sp i c
        { phases := Function.update c.phases i (HPhase.proceeding true (some sp)),
          settings := some { loaded := true, pfx := some sp },
          loadCount := c.loadCount }

/-- Reachability by any interleaving of handler steps. -/
inductive DReach (sp : String) {n : Nat} : DispatchConfig n → DispatchConfig n → Prop where
  | refl (c : DispatchConfig n) : DReach sp c c
  | tail {a b c : DispatchConfig n} {i : Fin n} :
      DReach sp a b → DStep sp i b c → DReach sp a c

/-- The configuration at process start for one guild: no bucket attached,
no load issued, every handler yet to run. -/
def initConfig (n : Nat) : DispatchConfig n :=
  { phases := fun _ => HPhase.start, settings := none, loadCount := 0 }

/-- The inductive invariant of the guild-settings section: no load before
a bucket is attached, never more than one load, and an attached bucket
that has not finished loading still has its default prefix. -/
def DInv {n : Nat} (c : DispatchConfig n) : Prop :=
  (c.settings = none → c.loadCount = 0) ∧
  c.loadCount ≤ 1 ∧
  (∀ b : GuildBucket, c.settings = some b → b.loaded = false → b.pfx = none)

/-- The configuration after the first handler of two has attached the
bucket and issued the one load, still awaiting its completion. -/
def cfgAfterAttach : DispatchConfig 2 :=
  { phases := Function.update (initConfig 2).phases 0 HPhase.awaitingLoad,
    settings := some freshGuildBucket,
    loadCount := 1 }

/-- The configuration after the second handler has passed the settings
section while the first handler's load is still in flight. -/
def cfgSecondPassed : DispatchConfig 2 :=
  { cfgAfterAttach with
    phases := Function.update cfgAfterAttach.phases 1
      (HPhase.proceeding freshGuildBucket.loaded freshGuildBucket.pfx) }

/-- Well-formedness of a directory tree as the real filesystem guarantees
it: no directory holds two entries with the same name. -/
def wfEntries : List (String × FsNode) → Bool
  | [] => true
  | (nm, FsNode.file) :: rest => !((rest.map Prod.fst).contains nm) && wfEntries rest
  | (nm, FsNode.dir sub) :: rest =>
    !((rest.map Prod.fst).contains nm) && wfEntries sub && wfEntries rest

theorem hasAlias_iff_mem_tokens (c : Command) (t : String) :
    c.hasAlias t = true ↔ t ∈ c.tokens := by
  simp only [Command.hasAlias, Command.tokens, List.contains, Bool.or_eq_true, beq_iff_eq,
    List.elem_eq_mem, decide_eq_true_eq, List.mem_cons]
  constructor <;> (intro h; rcases h with h | h)
  · exact Or.inl h.symm
  · exact Or.inr h
  · exact Or.inl h.symm
  · exact Or.inr h

theorem findCommand_eq_none (commands : List Command) (x : String)
    (h : ∀ d ∈ commands, d.hasAlias x = false) : findCommand commands x = none := by
  induction commands with
  | nil => rfl
  | cons c rest ih =>
    simp only [findCommand, h c (List.mem_cons_self c rest)]
    exact ih fun d hd => h d (List.mem_cons_of_mem c hd)

theorem findCommand_eq_of_mem (commands : List Command) (C : Command) (t : String)
    (hmem : C ∈ commands) (ht : t ∈ C.tokens)
    (huniq : ∀ c ∈ commands, ∀ d ∈ commands, c ≠ d → ∀ s ∈ c.tokens, s ∉ d.tokens) :
    findCommand commands t = some C := by
  induction commands with
  | nil => cases hmem
  | cons c rest ih =>
    by_cases hc : c.hasAlias t = true
    · simp only [findCommand, hc, if_pos]
      rcases List.mem_cons.mp hmem with hCc | hCrest
      · rw [hCc]
      · by_cases hceq : c = C
        · rw [hceq]
        · exact absurd ht
            (huniq c (List.mem_cons_self c rest) C hmem hceq t
              ((hasAlias_iff_mem_tokens c t).mp hc))
    · have hC : C ∈ rest := by
        rcases List.mem_cons.mp hmem with hCc | hCrest
        · exact absurd ((hasAlias_iff_mem_tokens C t).mpr ht) (hCc ▸ hc)
        · exact hCrest
      simp only [findCommand, Bool.not_eq_true] at hc ⊢
      rw [hc]
      simp only [Bool.false_eq_true, if_false]
      exact ih hC fun a ha b hb =>
        huniq a (List.mem_cons_of_mem c ha) b (List.mem_cons_of_mem c hb)

theorem findCommand_first (pre post : List Command) (c : Command) (t : String)
    (hpre : ∀ d ∈ pre, d.hasAlias t = false) (hc : c.hasAlias t = true) :
    findCommand (pre ++ c :: post) t = some c := by
  induction pre with
  | nil => simp [findCommand, hc]
  | cons d rest ih =>
    have hd : d.hasAlias t = false := hpre d (List.mem_cons_self d rest)
    simp only [List.cons_append, findCommand, hd]
    simp only [Bool.false_eq_true, if_false]
    exact ih fun e he => hpre e (List.mem_cons_of_mem d he)

/-- C1 (counterexample): with two commands registered, a token that is not
the name or an alias of the first command can still resolve, to the other
command, so findCommand does not return null for every token outside one
fixed command's name-and-alias set. -/
theorem claim_C1_cex :
    cmdPing.hasAlias "ban" = false ∧
    findCommand [cmdPing, cmdBan] "ban" = some cmdBan := by decide

/-- C1 (amended): in a registry whose name/alias token sets are pairwise
disjoint across distinct commands (the uniqueness invariant of the data
model), findCommand maps a registered command's primary name and each of
its aliases to that command, and maps any token matched by no registered
command to none, matching case-sensitively on exact string equality. -/
theorem claim_C1_resolution (commands : List Command) (C : Command)
    (hmem : C ∈ commands)
    (huniq : ∀ c ∈ commands, ∀ d ∈ commands, c ≠ d → ∀ s ∈ c.tokens, s ∉ d.tokens) :
    findCommand commands C.name = some C ∧
    (∀ a ∈ C.aliases, findCommand commands a = some C) ∧
    (∀ x, (∀ d ∈ commands, d.hasAlias x = false) → findCommand commands x = none) := by
  refine ⟨?_, ?_, ?_⟩
  · exact findCommand_eq_of_mem commands C C.name hmem
      (List.mem_cons_self C.name C.aliases) huniq
  · exact fun a ha => findCommand_eq_of_mem commands C a hmem
      (List.mem_cons_of_mem C.name ha) huniq
  · exact fun x hx => findCommand_eq_none commands x hx

/-- C1 (witness): the amended theorem applied to the concrete registry
holding `cmdPing` and `cmdBan`. -/
theorem claim_C1_witness :
    findCommand [cmdPing, cmdBan] "ping" = some cmdPing ∧
    findCommand [cmdPing, cmdBan] "p" = some cmdPing ∧
    findCommand [cmdPing, cmdBan] "nosuch" = none := by
  have h := claim_C1_resolution [cmdPing, cmdBan] cmdPing (by decide) (by decide)
  exact ⟨h.1, h.2.1 "p" (by decide), h.2.2 "nosuch" (by decide)⟩

/-- C4: when two registered commands share a token (an alias of one equal
to a name or alias of the other) and no command registered before the
first of them matches that token, findCommand returns the first-registered
of the two for that token, and never the later-registered one. -/
theorem claim_C4_first_registered (pre mid post : List Command) (c1 c2 : Command)
    (t : String)
    (hpre : ∀ d ∈ pre, d.hasAlias t = false)
    (h1 : c1.hasAlias t = true) (h2 : c2.hasAlias t = true) :
    findCommand (pre ++ c1 :: (mid ++ c2 :: post)) t = some c1 ∧
    (c1 ≠ c2 → findCommand (pre ++ c1 :: (mid ++ c2 :: post)) t ≠ some c2) := by
  have hfirst := findCommand_first pre (mid ++ c2 :: post) c1 t hpre h1
  refine ⟨hfirst, fun hne heq => hne ?_⟩
  rw [hfirst] at heq
  exact Option.some.inj heq

/-- C4 (witness): `cmdPing` and `cmdPingTwo` share the alias "p"; the
first-registered `cmdPing` is returned and `cmdPingTwo` is not. -/
theorem claim_C4_witness :
    findCommand [cmdPing, cmdPingTwo] "p" = some cmdPing ∧
    findCommand [cmdPing, cmdPingTwo] "p" ≠ some cmdPingTwo := by
  have h := claim_C4_first_registered [] [] [] cmdPing cmdPingTwo "p"
    (by intro d hd; cases hd) (by decide) (by decide)
  exact ⟨h.1, h.2 (by decide)⟩

/-- C3 (counterexample): the raw recursive enumeration itself does not
yield an empty list on a non-existent directory; `fs.readdirSync` raises,
modelled as an error result. -/
theorem claim_C3_cex : getFilesSync (FsNode.dir []) ["commands"] = Except.error () := rfl

/-- C3 (amended): a command load pass given a non-existent directory
completes with no effect and no error, because `loadCommands` checks
`fs.existsSync` before ever invoking the enumeration; the enumeration
itself, invoked directly on a non-existent directory, raises rather than
returning an empty list. -/
theorem claim_C3_missing_dir (root : FsNode)
    (loadModule : List String → List (String × ExportVal))
    (dirPath : List String) (idx : List Command)
    (h : resolveNode root dirPath = none) :
    loadCommandsPass root loadModule dirPath idx = Except.ok idx := by
  simp [loadCommandsPass, existsSync, h]

/-- C3 (witness): the amended theorem applied to an empty root and the
conventional commands directory. -/
theorem claim_C3_witness :
    loadCommandsPass (FsNode.dir []) (fun _ => []) ["commands"] [] = Except.ok [] :=
  claim_C3_missing_dir (FsNode.dir []) (fun _ => []) ["commands"] [] rfl

theorem loadModuleCommands_eq (exps : List (String × ExportVal)) :
    ∀ idx, loadModuleCommands idx exps = idx ++ exps.filterMap exportInstance := by
  induction exps with
  | nil => intro idx; simp [loadModuleCommands]
  | cons e rest ih =>
    intro idx
    obtain ⟨nm, v⟩ := e
    cases v with
    | commandCtor c => simp [loadModuleCommands, exportInstance, List.filterMap_cons, ih]
    | otherCtor => simp [loadModuleCommands, exportInstance, List.filterMap_cons, ih]
    | plainValue => simp [loadModuleCommands, exportInstance, List.filterMap_cons, ih]

/-- C7: over a command load pass, the command index receives exactly the
instances of function-typed exports that instantiate to `Command`, in
order; non-function exports and instances of other capabilities contribute
nothing and have no effect on the index. -/
theorem claim_C7_registration (idx : List Command)
    (mods : List (List (String × ExportVal))) :
    loadPassModules idx mods =
      idx ++ (mods.map (fun exps => exps.filterMap exportInstance)).flatten := by
  induction mods generalizing idx with
  | nil => simp [loadPassModules]
  | cons exps rest ih =>
    simp only [loadPassModules, List.foldl_cons, List.map_cons, List.flatten_cons]
    rw [show List.foldl loadModuleCommands (loadModuleCommands idx exps) rest =
      loadPassModules (loadModuleCommands idx exps) rest from rfl]
    rw [ih, loadModuleCommands_eq, List.append_assoc]

/-- C8: a message whose content does not begin with the guild's configured
prefix produces no effect at all: no command lookup is performed and no
reply is sent. -/
theorem claim_C8_prefix_filter (commands : List Command) (pfx : String) (m : Message)
    (h : jsStartsWith m.content pfx = false) :
    handleMessage commands pfx m = [] := by
  simp [handleMessage, h]

/-- C8 (witness): the prefix filter applied to a concrete non-command
message. -/
theorem claim_C8_witness :
    handleMessage [cmdPing, cmdBan] "!" { content := "hello there", authorIsBot := false }
      = [] :=
  claim_C8_prefix_filter [cmdPing, cmdBan] "!"
    { content := "hello there", authorIsBot := false } (by decide)

/-- C5: a prefixed, non-bot message resolving to a command but supplying
fewer argument tokens than the command's declared minimum produces exactly
one lookup and exactly one reply, whose text is exactly the word Usage, a
colon, two spaces and the backtick-quoted usage template; the command's
execute contract is not invoked. -/
theorem claim_C5_usage_reply (commands : List Command) (pfx : String) (m : Message)
    (c : Command)
    (hp : jsStartsWith m.content pfx = true)
    (hb : m.authorIsBot = false)
    (hf : findCommand commands (inputCommandName pfx m.content) = some c)
    (hn : (inputArgs pfx m.content).length < c.minArgs) :
    handleMessage commands pfx m =
      [Effect.lookup (inputCommandName pfx m.content),
       Effect.send ("Usage:  `" ++ c.usage ++ "`")] := by
  have hip : isProper c (inputArgs pfx m.content) = false := by
    simp [isProper, Nat.not_le.mpr hn]
  simp [handleMessage, hp, hb, hf, hip, usageMessage]

/-- C5 (witness): the command ban with usage template "ban <user> <reason>"
and minArgs 2, invoked as "!ban alice", replies with exactly the quoted
usage template and does not execute. -/
theorem claim_C5_witness :
    handleMessage [cmdBan] "!" { content := "!ban alice", authorIsBot := false } =
      [Effect.lookup "ban", Effect.send "Usage:  `ban <user> <reason>`"] := by
  rw [claim_C5_usage_reply [cmdBan] "!" { content := "!ban alice", authorIsBot := false }
    cmdBan (by decide) (by decide) (by decide) (by decide)]
  decide

/-- C6: a prefixed, non-bot message resolving to a command and supplying
at least the command's declared minimum of argument tokens produces
exactly one lookup and exactly one invocation of the command's execute
contract, carrying the post-prefix post-command-name tokens, and no usage
reply. -/
theorem claim_C6_execute (commands : List Command) (pfx : String) (m : Message)
    (c : Command)
    (hp : jsStartsWith m.content pfx = true)
    (hb : m.authorIsBot = false)
    (hf : findCommand commands (inputCommandName pfx m.content) = some c)
    (hn : c.minArgs ≤ (inputArgs pfx m.content).length) :
    handleMessage commands pfx m =
      [Effect.lookup (inputCommandName pfx m.content),
       Effect.execute c (inputArgs pfx m.content)] := by
  have hip : isProper c (inputArgs pfx m.content) = true := by
    simp [isProper, hn]
  simp [handleMessage, hp, hb, hf, hip]

/-- C6 (witness): "!ban alice spamming" against the ban command executes
once with the argument tokens alice and spamming, and sends nothing. -/
theorem claim_C6_witness :
    handleMessage [cmdBan] "!" { content := "!ban alice spamming", authorIsBot := false } =
      [Effect.lookup "ban", Effect.execute cmdBan ["alice", "spamming"]] := by
  rw [claim_C6_execute [cmdBan] "!"
    { content := "!ban alice spamming", authorIsBot := false }
    cmdBan (by decide) (by decide) (by decide) (by decide)]
  decide

theorem dinv_init (n : Nat) : DInv (initConfig n) := by
  refine ⟨fun _ => rfl, by simp [initConfig], ?_⟩
  intro b hb
  simp [initConfig] at hb

theorem dinv_step {sp : String} {n : Nat} {i : Fin n} {c c' : DispatchConfig n}
    (hinv : DInv c) (hstep : DStep sp i c c') : DInv c' := by
  obtain ⟨h0, h1, h2⟩ := hinv
  cases hstep with
  | preludeFresh hph hs =>
    refine ⟨by simp, ?_, ?_⟩
    · simp [h0 hs]
    · intro b hb
      simp at hb
      subst hb
      intro
      rfl
  | preludeCached b hph hs =>
    exact ⟨h0, h1, h2⟩
  | loadDone b hph hs =>
    refine ⟨by simp, h1, ?_⟩
    intro b' hb'
    simp at hb'
    subst hb'
    intro h
    simp at h

theorem dinv_reach {sp : String} {n : Nat} {c : DispatchConfig n}
    (h : DReach sp (initConfig n) c) : DInv c := by
  induction h with
  | refl => exact dinv_init n
  | tail _ hstep ih => exact dinv_step ih hstep

/-- C2: across any number of message handlers for one guild and any
cooperative interleaving of their steps, at most one settings load is ever
issued to the external store; a load is issued only by the handler that
finds no bucket attached, and the attachment happens in the same
synchronous block, so a handler arriving before the first load completes
still issues no second load. -/
theorem claim_C2_load_at_most_once {sp : String} {n : Nat} {c : DispatchConfig n}
    (h : DReach sp (initConfig n) c) : c.loadCount ≤ 1 :=
  (dinv_reach h).2.1

/-- C2 (witness): the bound applied to a concrete reachable two-handler
configuration in which the first handler has issued its load. -/
theorem claim_C2_witness :
    DReach "!" (initConfig 2) cfgAfterAttach ∧ cfgAfterAttach.loadCount ≤ 1 := by
  have h : DReach "!" (initConfig 2) cfgAfterAttach :=
    DReach.tail (DReach.refl _) (DStep.preludeFresh 0 (initConfig 2) rfl rfl)
  exact ⟨h, claim_C2_load_at_most_once h⟩

/-- C10: in any reachable configuration in which a bucket is attached but
not yet loaded, a handler whose handling starts there (its prelude step
runs between the attachment and the load completion) issues no load,
attaches nothing new, and proceeds past the settings section observing
the attached bucket with its not-yet-loaded state: loaded false and the
default prefix. This is a consequence of the attachment being performed
strictly before the load is awaited. -/
theorem claim_C10_sees_unloaded_bucket {sp : String} {n : Nat} {i : Fin n}
    {c c' : DispatchConfig n} {b : GuildBucket}
    (hreach : DReach sp (initConfig n) c)
    (hph : c.phases i = HPhase.start) (hs : c.settings = some b) (hu : b.loaded = false)
    (hstep : DStep sp i c c') :
    c'.loadCount = c.loadCount ∧ c'.settings = c.settings ∧
    c'.phases i = HPhase.proceeding false none := by
  have hpfx : b.pfx = none := (dinv_reach hreach).2.2 b hs hu
  cases hstep with
  | preludeFresh hph' hs' => rw [hs'] at hs; cases hs
  | preludeCached b' hph' hs' =>
    rw [hs'] at hs
    injection hs with hb
    subst hb
    refine ⟨rfl, rfl, ?_⟩
    simp [Function.update, hu, hpfx]
  | loadDone b' hph' hs' => rw [hph'] at hph; cases hph

/-- C10 (witness): with two handlers, the second one starting after the
attachment and before the load completion issues no load and proceeds
with the unloaded bucket. -/
theorem claim_C10_witness :
    cfgSecondPassed.loadCount = cfgAfterAttach.loadCount ∧
    cfgSecondPassed.settings = cfgAfterAttach.settings ∧
    cfgSecondPassed.phases 1 = HPhase.proceeding false none := by
  have hreach : DReach "!" (initConfig 2) cfgAfterAttach :=
    DReach.tail (DReach.refl _) (DStep.preludeFresh 0 (initConfig 2) rfl rfl)
  have hph : cfgAfterAttach.phases 1 = HPhase.start := by
    simp [cfgAfterAttach, Function.update, initConfig]
  have hstep : DStep "!" 1 cfgAfterAttach cfgSecondPassed :=
    DStep.preludeCached 1 cfgAfterAttach freshGuildBucket hph rfl
  exact claim_C10_sees_unloaded_bucket hreach hph rfl rfl hstep

theorem lookupEntry_eq_none (l : List (String × FsNode)) (s : String)
    (h : ((l.map Prod.fst).contains s) = false) : lookupEntry l s = none := by
  induction l with
  | nil => rfl
  | cons e rest ih =>
    obtain ⟨nm, child⟩ := e
    simp only [List.map_cons, List.contains_cons, Bool.or_eq_false_iff] at h
    obtain ⟨h1, h2⟩ := h
    have hne : nm ≠ s := by
      intro hx
      subst hx
      simp at h1
    simp only [lookupEntry, if_neg hne]
    exact ih h2

theorem resolveNode_dir_cons_eq (nm : String) (child : FsNode)
    (rest : List (String × FsNode)) (tail : List String) :
    resolveNode (FsNode.dir ((nm, child) :: rest)) (nm :: tail) = resolveNode child tail := by
  simp [resolveNode, lookupEntry]

theorem resolveNode_dir_cons_ne (nm : String) (child : FsNode)
    (rest : List (String × FsNode)) (seg : String) (tail : List String) (h : nm ≠ seg) :
    resolveNode (FsNode.dir ((nm, child) :: rest)) (seg :: tail) =
      resolveNode (FsNode.dir rest) (seg :: tail) := by
  simp [resolveNode, lookupEntry, h]

theorem getLast?_cons_of_ne_nil {α : Type} (a : α) (l : List α) (h : l ≠ []) :
    (a :: l).getLast? = l.getLast? := by
  cases l with
  | nil => exact absurd rfl h
  | cons b t => rfl

/-- C9: under the well-formedness condition that no directory holds two
entries of the same name, a path is produced by the recursive scan exactly
when it extends the scanned directory path, resolves to a plain file in
the tree, and has a final segment whose lowercased name ends in ".js"
(so names ending in ".JS" or ".Js" qualify); in particular directory
entries never appear in the result, since every produced path resolves to
a file node. -/
theorem claim_C9_scan (p : List String) (entries : List (String × FsNode)) :
    wfEntries entries = true → ∀ q : List String,
      (q ∈ getFilesList p entries ↔
        ∃ rest, q = p ++ rest ∧
          resolveNode (FsNode.dir entries) rest = some FsNode.file ∧
          ∃ nm, rest.getLast? = some nm ∧ jsEndsWith (jsToLower nm) ".js" = true) := by
  induction p, entries using getFilesList.induct with
  | case1 p =>
    intro _ q
    simp only [getFilesList, List.not_mem_nil, false_iff]
    rintro ⟨rest, hq, hres, nm, hlast, hjs⟩
    cases rest with
    | nil => simp at hlast
    | cons seg tail => simp [resolveNode, lookupEntry] at hres
  | case2 p nm rest ih =>
    intro hwf q
    simp only [wfEntries, Bool.and_eq_true, Bool.not_eq_true'] at hwf
    obtain ⟨hnm, hwfrest⟩ := hwf
    have ihq := ih hwfrest
    simp only [getFilesList, List.mem_append]
    constructor
    · rintro (hin | hin)
      · by_cases hcond : jsEndsWith (jsToLower nm) ".js" = true
        · rw [if_pos hcond] at hin
          simp only [List.mem_singleton] at hin
          subst hin
          refine ⟨[nm], rfl, ?_, nm, rfl, hcond⟩
          rw [resolveNode_dir_cons_eq]
          rfl
        · rw [if_neg hcond] at hin
          cases hin
      · obtain ⟨r, hq, hres, nm', hlast, hjs⟩ := (ihq q).mp hin
        cases r with
        | nil => simp [resolveNode] at hres
        | cons seg tail =>
          have hne : nm ≠ seg := by
            intro heq
            subst heq
            simp only [resolveNode, lookupEntry_eq_none rest nm hnm] at hres
            exact Option.noConfusion hres
          exact ⟨seg :: tail, hq, by rw [resolveNode_dir_cons_ne _ _ _ _ _ hne]; exact hres,
            nm', hlast, hjs⟩
    · rintro ⟨r, hq, hres, nm', hlast, hjs⟩
      cases r with
      | nil => simp [resolveNode] at hres
      | cons seg tail =>
        by_cases hseg : nm = seg
        · subst hseg
          rw [resolveNode_dir_cons_eq] at hres
          cases tail with
          | nil =>
            simp only [List.getLast?_singleton, Option.some.injEq] at hlast
            subst hlast
            left
            rw [if_pos hjs]
            simp [hq]
          | cons x xs => simp [resolveNode] at hres
        · right
          refine (ihq q).mpr ⟨seg :: tail, hq, ?_, nm', hlast, hjs⟩
          rw [← resolveNode_dir_cons_ne nm FsNode.file rest seg tail hseg]
          exact hres
  | case3 p nm sub rest ih1 ih2 =>
    intro hwf q
    simp only [wfEntries, Bool.and_eq_true, Bool.not_eq_true'] at hwf
    obtain ⟨⟨hnm, hwfsub⟩, hwfrest⟩ := hwf
    have ih1q := ih1 hwfsub
    have ih2q := ih2 hwfrest
    simp only [getFilesList, List.mem_append]
    constructor
    · rintro (hin | hin)
      · obtain ⟨r', hq, hres, nm', hlast, hjs⟩ := (ih1q q).mp hin
        cases r' with
        | nil => simp [resolveNode] at hres
        | cons s tl =>
          refine ⟨nm :: s :: tl, by rw [hq]; simp, ?_, nm', ?_, hjs⟩
          · rw [resolveNode_dir_cons_eq]
            exact hres
          · rw [getLast?_cons_of_ne_nil nm (s :: tl) (by simp)]
            exact hlast
      · obtain ⟨r, hq, hres, nm', hlast, hjs⟩ := (ih2q q).mp hin
        cases r with
        | nil => simp [resolveNode] at hres
        | cons seg tail =>
          have hne : nm ≠ seg := by
            intro heq
            subst heq
            simp only [resolveNode, lookupEntry_eq_none rest nm hnm] at hres
            exact Option.noConfusion hres
          exact ⟨seg :: tail, hq, by rw [resolveNode_dir_cons_ne _ _ _ _ _ hne]; exact hres,
            nm', hlast, hjs⟩
    · rintro ⟨r, hq, hres, nm', hlast, hjs⟩
      cases r with
      | nil => simp [resolveNode] at hres
      | cons seg tail =>
        by_cases hseg : nm = seg
        · subst hseg
          rw [resolveNode_dir_cons_eq] at hres
          cases tail with
          | nil => simp [resolveNode] at hres
          | cons x xs =>
            left
            refine (ih1q q).mpr ⟨x :: xs, by rw [hq]; simp, hres, nm', ?_, hjs⟩
            rw [getLast?_cons_of_ne_nil nm (x :: xs) (by simp)] at hlast
            exact hlast
        · right
          refine (ih2q q).mpr ⟨seg :: tail, hq, ?_, nm', hlast, hjs⟩
          rw [← resolveNode_dir_cons_ne nm (FsNode.dir sub) rest seg tail hseg]
          exact hres

/-- C9 (witness): in a concrete tree, the file named "x.JS" under
directory "a" is collected (the extension test is on the lowercased
name). -/
theorem claim_C9_witness :
    ["a", "x.JS"] ∈
      getFilesList [] [("a", FsNode.dir [("x.JS", FsNode.file)]), ("b.txt", FsNode.file)] :=
  (claim_C9_scan [] [("a", FsNode.dir [("x.JS", FsNode.file)]), ("b.txt", FsNode.file)]
      (by simp [wfEntries]) ["a", "x.JS"]).mpr
    ⟨["a", "x.JS"], rfl, rfl, "x.JS", by decide, by decide⟩
